import Mathlib

/-!
Shallow embedding of the air-cargo STRIPS planning core
(`my_air_cargo_problems.py`): literal/term model, state codec, action
schema grounder, transition engine, goal evaluator and the
ignore-preconditions heuristic, together with theorems checking the
specification's contracts against these definitions.

The repository file delegates literal bookkeeping to helper modules
(`lp_utils.encode_state`/`decode_state`, the `aimacode` knowledge base and
`Action` application, `functools.lru_cache`).  Those helpers are modelled
from the specification; every definition whose doc string starts with
`Modelled from the spec:` is such a model.  Everything else is translated
directly from `my_air_cargo_problems.py`.
-/

namespace AirCargo

/-- A ground literal (atom): a predicate symbol such as `At` or `In`
applied to an ordered tuple of term names, mirroring the `expr` values
like `At(C1, SFO)` used throughout the source. -/
structure Lit where
  pred : String
  args : List String
deriving DecidableEq, Repr

/-- A clause held in the propositional knowledge base: a literal together
with a negation flag (the flag mirrors the source test `e.op == '~'`). -/
structure Clause where
  negated : Bool
  lit : Lit
deriving DecidableEq, Repr

/-- Positive and negative literal fluents, as in `lp_utils.FluentState`. -/
structure FluentState where
  pos : List Lit
  neg : List Lit
deriving DecidableEq, Repr

/-- Modelled from the spec: `lp_utils.encode_state` is not under `src/`.
Per §4.1, for each atom of the fluent map the corresponding bit is true
iff that atom is present in the true-literal list; only `pos` membership
is consulted (closed-world encoding). -/
def encode_state (fs : FluentState) (fluent_map : List Lit) : List Bool :=
  fluent_map.map (fun f => decide (f ∈ fs.pos))

/-- Modelled from the spec: `lp_utils.decode_state` is not under `src/`.
Per §4.1, the fluent map is partitioned by the corresponding bit of the
state, preserving order; every indexed atom lands in exactly one side. -/
def decode_state : List Bool → List Lit → FluentState
  | [], _ => ⟨[], []⟩
  | _ :: _, [] => ⟨[], []⟩
  | b :: s, l :: u =>
    let fs := decode_state s u
    if b then ⟨l :: fs.pos, fs.neg⟩ else ⟨fs.pos, l :: fs.neg⟩

/-- Modelled from the spec: the `aimacode` knowledge base is not under
`src/`.  Telling a `FluentState`'s `sentence()` to a fresh `PropKB`
yields one clause per literal, the positive ones first and the negative
ones negated, in order. -/
def sentenceClauses (fs : FluentState) : List Clause :=
  fs.pos.map (fun l => Clause.mk false l) ++ fs.neg.map (fun l => Clause.mk true l)

/-- Modelled from the spec: telling only the positive sentence
(`pos_sentence()`) yields one positive clause per true literal. -/
def posSentenceClauses (fs : FluentState) : List Clause :=
  fs.pos.map (fun l => Clause.mk false l)

/-- A ground STRIPS action, per §3 of the spec and `aimacode.planning.Action`:
name, argument tuple, positive and negative preconditions, add and
remove effects. -/
structure Action where
  name : String
  args : List String
  precond_pos : List Lit
  precond_neg : List Lit
  effect_add : List Lit
  effect_rem : List Lit
deriving DecidableEq, Repr

/-- Modelled from the spec: `Action.check_precond` of `aimacode` is not
under `src/`.  Per §4.3, an action is applicable iff every positive
precondition literal is among the knowledge base's positive clauses and
no negative precondition literal is. -/
def Action.check_precond (a : Action) (clauses : List Clause) : Bool :=
  a.precond_pos.all (fun l => decide (Clause.mk false l ∈ clauses)) &&
    a.precond_neg.all (fun l => decide (Clause.mk false l ∉ clauses))

/-- Modelled from the spec: `Action.act` of `aimacode` (reached through
`action(kb, action.args)` in `result`) is not under `src/`.  Per §4.3 it
applies the effects unconditionally: each `effect_rem` literal is
retracted (the first matching positive clause is removed; removing an
absent literal is a no-op) and then each `effect_add` literal is told
(appended as a positive clause). -/
def Action.act (a : Action) (clauses : List Clause) : List Clause :=
  (a.effect_rem.foldl (fun cs l => cs.erase (Clause.mk false l)) clauses) ++
    a.effect_add.map (fun l => Clause.mk false l)

/-- Ground Load action built in `load_actions`:
`Load(c, p, a)` with preconditions `At(c, a) ∧ At(p, a)`, add effect
`In(c, p)` and remove effect `At(c, a)`. -/
def loadAct (c p a : String) : Action :=
  { name := "Load", args := [c, p, a]
    precond_pos := [Lit.mk "At" [c, a], Lit.mk "At" [p, a]]
    precond_neg := []
    effect_add := [Lit.mk "In" [c, p]]
    effect_rem := [Lit.mk "At" [c, a]] }

/-- Ground Unload action built in `unload_actions`:
`Unload(c, p, a)` with preconditions `In(c, p) ∧ At(p, a)`, add effect
`At(c, a)` and remove effect `In(c, p)`. -/
def unloadAct (c p a : String) : Action :=
  { name := "Unload", args := [c, p, a]
    precond_pos := [Lit.mk "In" [c, p], Lit.mk "At" [p, a]]
    precond_neg := []
    effect_add := [Lit.mk "At" [c, a]]
    effect_rem := [Lit.mk "In" [c, p]] }

/-- Ground Fly action built in `fly_actions`:
`Fly(p, fr, toA)` with precondition `At(p, fr)`, add effect `At(p, toA)`
and remove effect `At(p, fr)`. -/
def flyAct (p fr toA : String) : Action :=
  { name := "Fly", args := [p, fr, toA]
    precond_pos := [Lit.mk "At" [p, fr]]
    precond_neg := []
    effect_add := [Lit.mk "At" [p, toA]]
    effect_rem := [Lit.mk "At" [p, fr]] }

/-- Translation of `load_actions`: one Load per (cargo, plane, airport)
triple, cargo loop outermost, then plane, then airport. -/
def load_actions (cargos planes airports : List String) : List Action :=
  cargos.flatMap (fun c => planes.flatMap (fun p => airports.map (fun a => loadAct c p a)))

/-- Translation of `unload_actions`: one Unload per (cargo, plane,
airport) triple, cargo loop outermost, then plane, then airport. -/
def unload_actions (cargos planes airports : List String) : List Action :=
  cargos.flatMap (fun c => planes.flatMap (fun p => airports.map (fun a => unloadAct c p a)))

/-- Translation of `fly_actions`: the from-airport loop is outermost,
then the to-airport loop guarded by `fr != to`, then the plane loop. -/
def fly_actions (planes airports : List String) : List Action :=
  airports.flatMap (fun fr =>
    airports.flatMap (fun toA =>
      if fr ≠ toA then planes.map (fun p => flyAct p fr toA) else []))

/-- Translation of `AirCargoProblem.get_actions`:
`load_actions() + unload_actions() + fly_actions()`. -/
def get_actions (cargos planes airports : List String) : List Action :=
  load_actions cargos planes airports ++ unload_actions cargos planes airports ++
    fly_actions planes airports

/-- The problem record built by `AirCargoProblem.__init__`: the state map
(atom universe) is `initial.pos + initial.neg`, the initial state is its
encoding, and the ground action list is frozen at construction. -/
structure AirCargoProblem where
  cargos : List String
  planes : List String
  airports : List String
  state_map : List Lit
  initial_state_TF : List Bool
  goal : List Lit
  actions_list : List Action
deriving DecidableEq, Repr

/-- Translation of `AirCargoProblem.__init__`. -/
def mkAirCargoProblem (cargos planes airports : List String)
    (initial : FluentState) (goal : List Lit) : AirCargoProblem :=
  let state_map := initial.pos ++ initial.neg
  { cargos := cargos, planes := planes, airports := airports
    state_map := state_map
    initial_state_TF := encode_state initial state_map
    goal := goal
    actions_list := get_actions cargos planes airports }

/-- Translation of `AirCargoProblem.actions`: decode the state, tell its
sentence to a fresh knowledge base, and keep the ground actions whose
precondition check passes, in list order. -/
def AirCargoProblem.actions (p : AirCargoProblem) (state : List Bool) : List Action :=
  let clauses := sentenceClauses (decode_state state p.state_map)
  p.actions_list.filter (fun a => a.check_precond clauses)

/-- Translation of `AirCargoProblem.result`: decode the state into a
knowledge base, apply the action, partition the resulting clauses by the
negation flag, and re-encode against the same state map. -/
def AirCargoProblem.result (p : AirCargoProblem) (state : List Bool) (action : Action) :
    List Bool :=
  let clauses := action.act (sentenceClauses (decode_state state p.state_map))
  let pos := (clauses.filter (fun e => !e.negated)).map (fun e => e.lit)
  let neg := (clauses.filter (fun e => e.negated)).map (fun e => e.lit)
  encode_state (FluentState.mk pos neg) p.state_map

/-- Translation of `AirCargoProblem.goal_test`: tell the positive
sentence of the decoded state and require every goal clause to be among
the knowledge base's clauses. -/
def AirCargoProblem.goal_test (p : AirCargoProblem) (state : List Bool) : Bool :=
  let clauses := posSentenceClauses (decode_state state p.state_map)
  p.goal.all (fun g => decide (Clause.mk false g ∈ clauses))

/-- Translation of `AirCargoProblem.h_1`: constant 1. -/
def AirCargoProblem.h_1 (_p : AirCargoProblem) (_state : List Bool) : Nat := 1

/-- Translation of the body of `AirCargoProblem.h_ignore_preconditions`:
tell the full sentence of the decoded state and count the goal clauses
missing from the knowledge base. -/
def AirCargoProblem.h_ignore_preconditions (p : AirCargoProblem) (state : List Bool) :
    Nat :=
  let clauses := sentenceClauses (decode_state state p.state_map)
  (p.goal.filter (fun g => decide (Clause.mk false g ∉ clauses))).length

/-- Translation of the body of `AirCargoProblem.h_pg_levelsum`: build
the planning graph on `(problem, state)` and return its level-sum.  The
planning-graph component is an external collaborator (§4.5, §6 of the
spec), so its `(problem, state) -> int` estimator is taken here as a
function parameter `level_sum`; the method only delegates to it. -/
def AirCargoProblem.h_pg_levelsum (p : AirCargoProblem)
    (level_sum : AirCargoProblem → List Bool → Nat) (state : List Bool) : Nat :=
  level_sum p state

/-- Statement of §4.3's `result` contract in the spec's own words, for
comparison with `AirCargoProblem.result`: starting from the decoded true
set, remove `effect_rem`, add `effect_add` (union semantics) and
re-encode against the same universe. -/
def resultSpecDesc (state : List Bool) (action : Action) (univ : List Lit) :
    List Bool :=
  let fs := decode_state state univ
  univ.map (fun l =>
    (decide (l ∈ fs.pos) && !decide (l ∈ action.effect_rem)) ||
      decide (l ∈ action.effect_add))

/-- Translation of `air_cargo_p1`: two cargos, two planes, airports JFK
and SFO, initial state C1@SFO, C2@JFK, P1@SFO, P2@JFK, goal
At(C1, JFK) ∧ At(C2, SFO). -/
def air_cargo_p1 : AirCargoProblem :=
  mkAirCargoProblem ["C1", "C2"] ["P1", "P2"] ["JFK", "SFO"]
    (FluentState.mk
      [Lit.mk "At" ["C1", "SFO"], Lit.mk "At" ["C2", "JFK"],
       Lit.mk "At" ["P1", "SFO"], Lit.mk "At" ["P2", "JFK"]]
      [Lit.mk "At" ["C2", "SFO"], Lit.mk "In" ["C2", "P1"],
       Lit.mk "In" ["C2", "P2"], Lit.mk "At" ["C1", "JFK"],
       Lit.mk "In" ["C1", "P1"], Lit.mk "In" ["C1", "P2"],
       Lit.mk "At" ["P1", "JFK"], Lit.mk "At" ["P2", "SFO"]])
    [Lit.mk "At" ["C1", "JFK"], Lit.mk "At" ["C2", "SFO"]]

/-- Ordered list of distinct (from, to) airport pairs, from-airport
outermost, as enumerated by the two outer loops of `fly_actions`. -/
def distinctPairs (airports : List String) : List (String × String) :=
  (airports.flatMap (fun fr => airports.map (fun toA => (fr, toA)))).filter
    (fun q => decide (q.1 ≠ q.2))

/-! Model of the memoisation installed on the two non-constant
heuristics by the `lru_cache(maxsize=8192)` decorators. -/

/-- Modelled from the spec: `functools.lru_cache` is not under `src/`.
A bounded least-recently-used cache: entries are kept most-recent first;
a hit refreshes the entry's recency, a miss inserts at the front and
evicts beyond the capacity. -/
structure LruCache (κ α : Type) [DecidableEq κ] where
  capacity : Nat
  entries : List (κ × α)

/-- Value stored under a key, if any. -/
def LruCache.lookup {κ α : Type} [DecidableEq κ] (cache : LruCache κ α) (k : κ) :
    Option α :=
  (cache.entries.find? (fun e => decide (e.1 = k))).map Prod.snd

/-- Modelled from the spec: a memoised call per §4.5 — on a hit return
the stored value and move its entry to the front; on a miss compute
`f k`, store it at the front and truncate to the capacity. -/
def LruCache.memoCall {κ α : Type} [DecidableEq κ] (f : κ → α)
    (cache : LruCache κ α) (k : κ) : α × LruCache κ α :=
  match cache.lookup k with
  | some v =>
    (v, ⟨cache.capacity, (k, v) :: cache.entries.filter (fun e => decide (e.1 ≠ k))⟩)
  | none => (f k, ⟨cache.capacity, ((k, f k) :: cache.entries).take cache.capacity⟩)

/-- Cache consistency: every stored value is the memoised function's
value at the stored key. -/
def LruCache.Consistent {κ α : Type} [DecidableEq κ] (cache : LruCache κ α)
    (f : κ → α) : Prop :=
  ∀ e ∈ cache.entries, e.2 = f e.1

/-- The capacity installed by both `lru_cache` decorators in the source. -/
def lruMaxsize : Nat := 8192

/-- Cache key per §4.5: a problem identity paired with a state.  Problem
instances are told apart by an identity tag, as the bound-method cache
key `(self, node)` tells apart `self` objects. -/
def hIgnoreKeyFun (problems : Nat → AirCargoProblem) : Nat × List Bool → Nat :=
  fun k => (problems k.1).h_ignore_preconditions k.2

/-- The memoised `h_ignore_preconditions`: `lru_cache` around the direct
computation, keyed by problem identity and state. -/
def hIgnoreMemo (problems : Nat → AirCargoProblem)
    (cache : LruCache (Nat × List Bool) Nat) (pid : Nat) (s : List Bool) :
    Nat × LruCache (Nat × List Bool) Nat :=
  LruCache.memoCall (hIgnoreKeyFun problems) cache (pid, s)

/-- Cache key for the memoised `h_pg_levelsum`, again a problem identity
paired with a state, the external level-sum estimator fixed. -/
def hLevelsumKeyFun (problems : Nat → AirCargoProblem)
    (level_sum : AirCargoProblem → List Bool → Nat) : Nat × List Bool → Nat :=
  fun k => (problems k.1).h_pg_levelsum level_sum k.2

/-- The memoised `h_pg_levelsum`: `lru_cache` around the delegated
computation, keyed by problem identity and state. -/
def hLevelsumMemo (problems : Nat → AirCargoProblem)
    (level_sum : AirCargoProblem → List Bool → Nat)
    (cache : LruCache (Nat × List Bool) Nat) (pid : Nat) (s : List Bool) :
    Nat × LruCache (Nat × List Bool) Nat :=
  LruCache.memoCall (hLevelsumKeyFun problems level_sum) cache (pid, s)

/-- The cache each `lru_cache(maxsize=8192)` decorator installs on its
heuristic: empty, with capacity `lruMaxsize` = 8192. -/
def freshHeuristicCache : LruCache (Nat × List Bool) Nat :=
  LruCache.mk lruMaxsize []

/-- A one-cargo instance whose goal literal `At(C1, SFO)` does not occur
in the atom universe (the universe holds only `At(C1, JFK)`), exercising
the never-satisfiable-goal case of §4.4. -/
def toyProblem : AirCargoProblem :=
  mkAirCargoProblem ["C1"] ["P1"] ["JFK"]
    (FluentState.mk [Lit.mk "At" ["C1", "JFK"]] [])
    [Lit.mk "At" ["C1", "SFO"]]

/-- The six-action plan of the end-to-end scenario in §8 of the spec. -/
def p1PlanSeq : List Action :=
  [loadAct "C1" "P1" "SFO", flyAct "P1" "SFO" "JFK", unloadAct "C1" "P1" "JFK",
   loadAct "C2" "P2" "JFK", flyAct "P2" "JFK" "SFO", unloadAct "C2" "P2" "SFO"]

/-- The state reached by folding the scenario plan through `result` from
the initial state of `air_cargo_p1`. -/
def p1FinalState : List Bool :=
  p1PlanSeq.foldl (fun s a => air_cargo_p1.result s a) air_cargo_p1.initial_state_TF

/-! Helper lemmas about the codec, the knowledge-base clause lists and
effect application. -/

theorem decode_state_cons_true (b : Bool) (s : List Bool) (l : Lit) (u : List Lit)
    (hb : b = true) :
    decode_state (b :: s) (l :: u) =
      FluentState.mk (l :: (decode_state s u).pos) (decode_state s u).neg := by
  subst hb; simp [decode_state]

theorem decode_state_cons_false (b : Bool) (s : List Bool) (l : Lit) (u : List Lit)
    (hb : b = false) :
    decode_state (b :: s) (l :: u) =
      FluentState.mk (decode_state s u).pos (l :: (decode_state s u).neg) := by
  subst hb; simp [decode_state]

theorem decode_pos_sublist (s : List Bool) (u : List Lit) :
    (decode_state s u).pos.Sublist u := by
  induction u generalizing s with
  | nil => cases s <;> simp [decode_state]
  | cons l u ih =>
    cases s with
    | nil => simp [decode_state]
    | cons b s =>
      cases b
      · rw [decode_state_cons_false false s l u rfl]
        exact (ih s).cons l
      · rw [decode_state_cons_true true s l u rfl]
        exact (ih s).cons₂ l

theorem decode_neg_sublist (s : List Bool) (u : List Lit) :
    (decode_state s u).neg.Sublist u := by
  induction u generalizing s with
  | nil => cases s <;> simp [decode_state]
  | cons l u ih =>
    cases s with
    | nil => simp [decode_state]
    | cons b s =>
      cases b
      · rw [decode_state_cons_false false s l u rfl]
        exact (ih s).cons₂ l
      · rw [decode_state_cons_true true s l u rfl]
        exact (ih s).cons l

theorem mem_sentenceClauses_false (fs : FluentState) (l : Lit) :
    Clause.mk false l ∈ sentenceClauses fs ↔ l ∈ fs.pos := by
  simp [sentenceClauses, List.mem_append, List.mem_map]

theorem mem_posSentenceClauses_false (fs : FluentState) (l : Lit) :
    Clause.mk false l ∈ posSentenceClauses fs ↔ l ∈ fs.pos := by
  simp [posSentenceClauses, List.mem_map]

theorem sentenceClauses_nodup {fs : FluentState} (hp : fs.pos.Nodup)
    (hn : fs.neg.Nodup) : (sentenceClauses fs).Nodup := by
  refine List.Nodup.append ?_ ?_ ?_
  · exact List.Nodup.map (fun a b h => by injection h) hp
  · exact List.Nodup.map (fun a b h => by injection h) hn
  · intro c hc1 hc2
    simp only [List.mem_map] at hc1 hc2
    obtain ⟨x, _, rfl⟩ := hc1
    obtain ⟨y, _, h⟩ := hc2
    injection h with h1 _
    exact absurd h1 (by decide)

theorem mem_foldl_erase {α : Type} [DecidableEq α] (rs : List α) (cs : List α)
    (hcs : cs.Nodup) (x : α) :
    x ∈ rs.foldl (fun acc r => acc.erase r) cs ↔ x ∈ cs ∧ x ∉ rs := by
  induction rs generalizing cs with
  | nil => simp
  | cons r rs ih =>
    simp only [List.foldl_cons]
    rw [ih (cs.erase r) (hcs.erase r), List.Nodup.mem_erase_iff hcs]
    simp only [List.mem_cons]
    tauto

theorem mem_act_false (a : Action) {cs : List Clause} (hcs : cs.Nodup) (l : Lit) :
    Clause.mk false l ∈ a.act cs ↔
      (Clause.mk false l ∈ cs ∧ l ∉ a.effect_rem) ∨ l ∈ a.effect_add := by
  unfold Action.act
  rw [List.mem_append]
  have hfold : a.effect_rem.foldl (fun cs x => cs.erase (Clause.mk false x)) cs
      = (a.effect_rem.map (fun x => Clause.mk false x)).foldl
          (fun acc r => acc.erase r) cs := by
    rw [List.foldl_map]
  rw [hfold, mem_foldl_erase _ _ hcs]
  simp [List.mem_map]

theorem mem_posPart (clauses : List Clause) (l : Lit) :
    l ∈ (clauses.filter (fun e => !e.negated)).map (fun e => e.lit) ↔
      Clause.mk false l ∈ clauses := by
  simp only [List.mem_map, List.mem_filter, Bool.not_eq_true']
  constructor
  · rintro ⟨e, ⟨he, hneg⟩, rfl⟩
    cases e
    simp only at hneg
    subst hneg
    exact he
  · intro h
    exact ⟨Clause.mk false l, ⟨h, rfl⟩, rfl⟩

theorem check_precond_iff (a : Action) (fs : FluentState) :
    a.check_precond (sentenceClauses fs) = true ↔
      (∀ l ∈ a.precond_pos, l ∈ fs.pos) ∧ (∀ l ∈ a.precond_neg, l ∉ fs.pos) := by
  unfold Action.check_precond
  simp [List.all_eq_true, mem_sentenceClauses_false]

theorem result_eq_desc (p : AirCargoProblem) (hu : p.state_map.Nodup)
    (s : List Bool) (a : Action) :
    p.result s a = resultSpecDesc s a p.state_map := by
  have hp : (decode_state s p.state_map).pos.Nodup :=
    List.Nodup.sublist (decode_pos_sublist s p.state_map) hu
  have hn : (decode_state s p.state_map).neg.Nodup :=
    List.Nodup.sublist (decode_neg_sublist s p.state_map) hu
  have hcs : (sentenceClauses (decode_state s p.state_map)).Nodup :=
    sentenceClauses_nodup hp hn
  unfold AirCargoProblem.result resultSpecDesc
  simp only [encode_state]
  apply List.map_congr_left
  intro l _
  have h1 : l ∈ ((a.act (sentenceClauses (decode_state s p.state_map))).filter
        (fun e => !e.negated)).map (fun e => e.lit) ↔
      (l ∈ (decode_state s p.state_map).pos ∧ l ∉ a.effect_rem) ∨
        l ∈ a.effect_add := by
    rw [mem_posPart, mem_act_false a hcs, mem_sentenceClauses_false]
  have h2 : ((decide (l ∈ (decode_state s p.state_map).pos) &&
        !decide (l ∈ a.effect_rem)) || decide (l ∈ a.effect_add))
      = decide ((l ∈ (decode_state s p.state_map).pos ∧ l ∉ a.effect_rem) ∨
          l ∈ a.effect_add) := by
    by_cases hp1 : l ∈ (decode_state s p.state_map).pos <;>
      by_cases hr1 : l ∈ a.effect_rem <;>
        by_cases ha1 : l ∈ a.effect_add <;>
          simp [hp1, hr1, ha1]
  rw [h2]
  exact decide_eq_decide.mpr h1

theorem encode_decode_state : ∀ (u : List Lit) (s : List Bool), u.Nodup →
    s.length = u.length → encode_state (decode_state s u) u = s
  | [], [], _, _ => rfl
  | [], _ :: _, _, hs => absurd hs (by simp)
  | _ :: _, [], _, hs => absurd hs (by simp)
  | l :: u, b :: s, hu, hs => by
    rw [List.nodup_cons] at hu
    have hlen : s.length = u.length := by simpa using hs
    have hpos := decode_pos_sublist s u
    have ih := encode_decode_state u s hu.2 hlen
    cases b
    · rw [decode_state_cons_false false s l u rfl]
      have hhead : decide (l ∈ (decode_state s u).pos) = false :=
        decide_eq_false_iff_not.mpr (fun hmem => hu.1 (hpos.subset hmem))
      show (decide (l ∈ (decode_state s u).pos)) ::
        encode_state (decode_state s u) u = false :: s
      rw [hhead, ih]
    · rw [decode_state_cons_true true s l u rfl]
      have hhead : decide (l ∈ l :: (decode_state s u).pos) = true := by simp
      have hcongr : ∀ f ∈ u, decide (f ∈ l :: (decode_state s u).pos)
          = decide (f ∈ (decode_state s u).pos) := by
        intro f hf
        apply decide_eq_decide.mpr
        simp only [List.mem_cons]
        constructor
        · rintro (rfl | h)
          · exact absurd hf hu.1
          · exact h
        · exact Or.inr
      show (decide (l ∈ l :: (decode_state s u).pos)) ::
        List.map (fun f => decide (f ∈ l :: (decode_state s u).pos)) u = true :: s
      rw [hhead, List.map_congr_left hcongr]
      show true :: encode_state (decode_state s u) u = true :: s
      rw [ih]

/-! Helper lemmas about the grounder: segment lengths and enumeration
order of the flattened loops. -/

theorem length_flatMap_const {α β : Type} (l : List α) (f : α → List β) (n : Nat)
    (h : ∀ x ∈ l, (f x).length = n) : (l.flatMap f).length = l.length * n := by
  induction l with
  | nil => simp
  | cons x xs ih =>
    simp only [List.flatMap_cons, List.length_append, List.length_cons]
    rw [h x (List.mem_cons_self x xs),
      ih (fun y hy => h y (List.mem_cons_of_mem x hy))]
    ring

theorem load_actions_length (cargos planes airports : List String) :
    (load_actions cargos planes airports).length =
      cargos.length * planes.length * airports.length := by
  unfold load_actions
  rw [length_flatMap_const _ _ (planes.length * airports.length)]
  · ring
  · intro c _
    rw [length_flatMap_const _ _ airports.length]
    intro p _
    simp

theorem unload_actions_length (cargos planes airports : List String) :
    (unload_actions cargos planes airports).length =
      cargos.length * planes.length * airports.length := by
  unfold unload_actions
  rw [length_flatMap_const _ _ (planes.length * airports.length)]
  · ring
  · intro c _
    rw [length_flatMap_const _ _ airports.length]
    intro p _
    simp

theorem fly_inner_length (planes : List String) (fr : String) (airports : List String) :
    (airports.flatMap (fun toA =>
        if fr ≠ toA then planes.map (fun p => flyAct p fr toA) else [])).length =
      (airports.countP (fun toA => decide (fr ≠ toA))) * planes.length := by
  induction airports with
  | nil => simp
  | cons a as ih =>
    simp only [List.flatMap_cons, List.length_append, ih, List.countP_cons]
    by_cases h : fr ≠ a
    · rw [if_pos h, if_pos (show decide (fr ≠ a) = true by simpa using h)]
      simp only [List.length_map]
      ring
    · rw [if_neg h, if_neg (show ¬decide (fr ≠ a) = true by simpa using h)]
      simp

theorem countP_ne_of_nodup (airports : List String) (hn : airports.Nodup)
    (fr : String) (hfr : fr ∈ airports) :
    airports.countP (fun toA => decide (fr ≠ toA)) = airports.length - 1 := by
  induction airports with
  | nil => cases hfr
  | cons a as ih =>
    rw [List.nodup_cons] at hn
    rw [List.countP_cons]
    rcases List.mem_cons.mp hfr with rfl | hfr2
    · rw [if_neg (by simp)]
      have hall : List.countP (fun toA => decide (fr ≠ toA)) as = as.length := by
        rw [List.countP_eq_length]
        intro x hx
        simp only [decide_eq_true_eq]
        exact fun he => hn.1 (he ▸ hx)
      rw [hall]
      simp
    · have hne : fr ≠ a := fun he => hn.1 (he ▸ hfr2)
      rw [if_pos (show decide (fr ≠ a) = true by simpa using hne), ih hn.2 hfr2]
      simp only [List.length_cons, Nat.add_sub_cancel]
      exact Nat.sub_add_cancel (List.length_pos_of_mem hfr2)

theorem fly_actions_length (planes airports : List String) (hn : airports.Nodup) :
    (fly_actions planes airports).length =
      planes.length * airports.length * (airports.length - 1) := by
  unfold fly_actions
  rw [length_flatMap_const _ _ ((airports.length - 1) * planes.length)]
  · ring
  · intro fr hfr
    rw [fly_inner_length, countP_ne_of_nodup airports hn fr hfr]

theorem index_bound (j k countY countZ : Nat) (hj : j < countY) (hk : k < countZ) :
    j * countZ + k < countY * countZ := by
  calc j * countZ + k < j * countZ + countZ := by omega
    _ = (j + 1) * countZ := by ring
    _ ≤ countY * countZ := Nat.mul_le_mul_right countZ hj

theorem flatMap_getElem_const {α β : Type} (l : List α) (f : α → List β) (n : Nat)
    (hconst : ∀ x ∈ l, (f x).length = n) :
    ∀ (i k : Nat) (hi : i < l.length), k < n →
      (l.flatMap f)[i * n + k]? = (f (l.get ⟨i, hi⟩))[k]? := by
  induction l with
  | nil => intro i k hi _; cases hi
  | cons x xs ih =>
    intro i k hi hk
    cases i with
    | zero =>
      simp only [List.flatMap_cons, Nat.zero_mul, Nat.zero_add, List.get_eq_getElem]
      rw [List.getElem?_append, hconst x (List.mem_cons_self x xs), if_pos hk]
      simp
    | succ i =>
      simp only [List.flatMap_cons, List.get_eq_getElem]
      rw [List.getElem?_append_right]
      · have hx : (f x).length = n := hconst x (List.mem_cons_self x xs)
        rw [hx]
        have harith : (i + 1) * n + k - n = i * n + k := by
          have h1 : (i + 1) * n = i * n + n := by ring
          omega
        rw [harith]
        have hi2 : i < xs.length := by simpa using hi
        have := ih (fun y hy => hconst y (List.mem_cons_of_mem x hy)) i k hi2 hk
        simpa using this
      · rw [hconst x (List.mem_cons_self x xs)]
        have h1 : (i + 1) * n = i * n + n := by ring
        omega

theorem triple_loop_getElem {α : Type} (g : String → String → String → α)
    (xs ys zs : List String) (i j k : Nat)
    (hi : i < xs.length) (hj : j < ys.length) (hk : k < zs.length) :
    (xs.flatMap (fun x => ys.flatMap (fun y => zs.map (fun z => g x y z))))[
        i * (ys.length * zs.length) + (j * zs.length + k)]? =
      some (g (xs.get ⟨i, hi⟩) (ys.get ⟨j, hj⟩) (zs.get ⟨k, hk⟩)) := by
  have hconst1 : ∀ x ∈ xs,
      (ys.flatMap (fun y => zs.map (fun z => g x y z))).length =
        ys.length * zs.length := by
    intro x _
    rw [length_flatMap_const _ _ zs.length]
    intro y _
    simp
  rw [flatMap_getElem_const xs _ (ys.length * zs.length) hconst1 i
    (j * zs.length + k) hi (index_bound j k ys.length zs.length hj hk)]
  rw [flatMap_getElem_const ys _ zs.length (fun y _ => by simp) j k hj hk]
  rw [List.getElem?_map, List.getElem?_eq_getElem hk]
  simp

theorem flatMap_filter_eq {α β : Type} (l : List α) (q : α → Bool) (g : α → List β) :
    (l.filter q).flatMap g = l.flatMap (fun x => if q x then g x else []) := by
  induction l with
  | nil => rfl
  | cons x xs ih =>
    by_cases h : q x = true
    · rw [List.filter_cons_of_pos h]
      simp only [List.flatMap_cons, ih, if_pos h]
    · rw [List.filter_cons_of_neg (by simpa using h)]
      simp only [List.flatMap_cons, ih]
      rw [if_neg h]
      simp

theorem fly_actions_grouped (planes airports : List String) :
    fly_actions planes airports =
      (distinctPairs airports).flatMap
        (fun q => planes.map (fun p => flyAct p q.1 q.2)) := by
  unfold fly_actions distinctPairs
  rw [flatMap_filter_eq, List.flatMap_assoc]
  apply congrArg
  funext fr
  rw [List.flatMap_map]
  apply congrArg
  funext toA
  simp

theorem lookup_consistent {κ α : Type} [DecidableEq κ] {cache : LruCache κ α}
    {f : κ → α} (hc : cache.Consistent f) {k : κ} {v : α}
    (h : cache.lookup k = some v) : v = f k := by
  unfold LruCache.lookup at h
  cases hfind : cache.entries.find? (fun e => decide (e.1 = k)) with
  | none => rw [hfind] at h; cases h
  | some e =>
    rw [hfind] at h
    have hmem : e ∈ cache.entries := List.mem_of_find?_eq_some hfind
    have hkey : e.1 = k := by
      have := List.find?_some hfind
      simpa using this
    have hval : v = e.2 := by
      have h2 : some e.2 = some v := h
      exact (Option.some_inj.mp h2).symm
    rw [hval, hc e hmem, hkey]

theorem memoCall_fst {κ α : Type} [DecidableEq κ] (f : κ → α)
    (cache : LruCache κ α) (hc : cache.Consistent f) (k : κ) :
    (LruCache.memoCall f cache k).1 = f k := by
  unfold LruCache.memoCall
  cases hl : cache.lookup k with
  | none => rfl
  | some v => exact lookup_consistent hc hl

theorem memoCall_consistent {κ α : Type} [DecidableEq κ] (f : κ → α)
    (cache : LruCache κ α) (hc : cache.Consistent f) (k : κ) :
    (LruCache.memoCall f cache k).2.Consistent f := by
  unfold LruCache.memoCall
  cases hl : cache.lookup k with
  | none =>
    intro e he
    have hsub : e ∈ (k, f k) :: cache.entries := (List.take_subset _ _) he
    rcases List.mem_cons.mp hsub with rfl | hmem
    · rfl
    · exact hc e hmem
  | some v =>
    intro e he
    rcases List.mem_cons.mp he with rfl | hmem
    · exact lookup_consistent hc hl
    · exact hc e (List.mem_of_mem_filter hmem)

theorem memoCall_bounded {κ α : Type} [DecidableEq κ] (f : κ → α)
    (cache : LruCache κ α) (k : κ) (hb : cache.entries.length ≤ cache.capacity) :
    (LruCache.memoCall f cache k).2.entries.length ≤ cache.capacity := by
  unfold LruCache.memoCall
  cases hl : cache.lookup k with
  | none =>
    simp only
    exact List.length_take_le _ _
  | some v =>
    simp only [List.length_cons]
    have hfound : ∃ e ∈ cache.entries, ¬(decide (e.1 ≠ k) = true) := by
      unfold LruCache.lookup at hl
      cases hfind : cache.entries.find? (fun e => decide (e.1 = k)) with
      | none => rw [hfind] at hl; cases hl
      | some e =>
        refine ⟨e, List.mem_of_find?_eq_some hfind, ?_⟩
        have := List.find?_some hfind
        simpa using this
    have hlt : (cache.entries.filter (fun e => decide (e.1 ≠ k))).length <
        cache.entries.length := by
      rcases hfound with ⟨e, hmem, hne⟩
      exact List.length_filter_lt_length_iff_exists.mpr ⟨e, hmem, hne⟩
    omega

theorem memoCall_capacity {κ α : Type} [DecidableEq κ] (f : κ → α)
    (cache : LruCache κ α) (k : κ) :
    (LruCache.memoCall f cache k).2.capacity = cache.capacity := by
  unfold LruCache.memoCall
  cases cache.lookup k with
  | none => rfl
  | some v => rfl

/-! Claim theorems. -/

/-- C1: for every state and every ground action applicable in that state
(one returned by `actions`), `result` returns the state obtained by
decoding the state against the atom universe, removing every literal of
the action's remove effect from the true set and adding every literal of
its add effect (union semantics: adding an already-true literal or
removing an already-false one is a no-op), and re-encoding against the
same universe. -/
theorem C1_result_matches_spec (p : AirCargoProblem) (hu : p.state_map.Nodup)
    (s : List Bool) (a : Action) (_ha : a ∈ p.actions s) :
    p.result s a = resultSpecDesc s a p.state_map :=
  result_eq_desc p hu s a

theorem C1_result_matches_spec_witness :
    air_cargo_p1.state_map.Nodup ∧
    loadAct "C1" "P1" "SFO" ∈ air_cargo_p1.actions air_cargo_p1.initial_state_TF ∧
    air_cargo_p1.result air_cargo_p1.initial_state_TF (loadAct "C1" "P1" "SFO") =
      resultSpecDesc air_cargo_p1.initial_state_TF (loadAct "C1" "P1" "SFO")
        air_cargo_p1.state_map :=
  ⟨by decide, by decide,
    C1_result_matches_spec air_cargo_p1 (by decide) air_cargo_p1.initial_state_TF
      (loadAct "C1" "P1" "SFO") (by decide)⟩

/-- C2: `actions` returns exactly the applicable subset of the problem's
ground-action list: every returned action has all positive preconditions
true and all negative preconditions false in the state, no applicable
ground action is omitted, and the returned list is a sublist of
`actions_list`, so it preserves the grounding order (loads, then
unloads, then flys). -/
theorem C2_actions_applicable_complete (p : AirCargoProblem) (s : List Bool) :
    (∀ a ∈ p.actions s,
      (∀ l ∈ a.precond_pos, l ∈ (decode_state s p.state_map).pos) ∧
      (∀ l ∈ a.precond_neg, l ∉ (decode_state s p.state_map).pos)) ∧
    (∀ a ∈ p.actions_list,
      (∀ l ∈ a.precond_pos, l ∈ (decode_state s p.state_map).pos) →
      (∀ l ∈ a.precond_neg, l ∉ (decode_state s p.state_map).pos) →
      a ∈ p.actions s) ∧
    (p.actions s).Sublist p.actions_list := by
  refine ⟨?_, ?_, ?_⟩
  · intro a ha
    have ha2 := (List.mem_filter.mp ha).2
    exact (check_precond_iff a (decode_state s p.state_map)).mp ha2
  · intro a ha h1 h2
    exact List.mem_filter.mpr
      ⟨ha, (check_precond_iff a (decode_state s p.state_map)).mpr ⟨h1, h2⟩⟩
  · exact List.filter_sublist _

theorem C2_actions_applicable_complete_witness :
    loadAct "C1" "P1" "SFO" ∈ air_cargo_p1.actions air_cargo_p1.initial_state_TF :=
  (C2_actions_applicable_complete air_cargo_p1 air_cargo_p1.initial_state_TF).2.1
    (loadAct "C1" "P1" "SFO") (by decide) (by decide) (by decide)

/-- C3: for cargo, plane and airport term lists (the airports pairwise
distinct), the grounder yields exactly c·p·a Load actions, c·p·a Unload
actions and p·a·(a−1) Fly actions restricted to distinct endpoints, and
every segment member carries exactly the schema's preconditions and
effects. -/
theorem C3_grounding_counts (cargos planes airports : List String)
    (hn : airports.Nodup) :
    (load_actions cargos planes airports).length =
      cargos.length * planes.length * airports.length ∧
    (unload_actions cargos planes airports).length =
      cargos.length * planes.length * airports.length ∧
    (fly_actions planes airports).length =
      planes.length * airports.length * (airports.length - 1) ∧
    (∀ act ∈ load_actions cargos planes airports,
      ∃ c ∈ cargos, ∃ p ∈ planes, ∃ a ∈ airports,
        act.name = "Load" ∧
        act.precond_pos = [Lit.mk "At" [c, a], Lit.mk "At" [p, a]] ∧
        act.precond_neg = [] ∧ act.effect_add = [Lit.mk "In" [c, p]] ∧
        act.effect_rem = [Lit.mk "At" [c, a]]) ∧
    (∀ act ∈ unload_actions cargos planes airports,
      ∃ c ∈ cargos, ∃ p ∈ planes, ∃ a ∈ airports,
        act.name = "Unload" ∧
        act.precond_pos = [Lit.mk "In" [c, p], Lit.mk "At" [p, a]] ∧
        act.precond_neg = [] ∧ act.effect_add = [Lit.mk "At" [c, a]] ∧
        act.effect_rem = [Lit.mk "In" [c, p]]) ∧
    (∀ act ∈ fly_actions planes airports,
      ∃ pl ∈ planes, ∃ fr ∈ airports, ∃ toA ∈ airports, fr ≠ toA ∧
        act.name = "Fly" ∧ act.precond_pos = [Lit.mk "At" [pl, fr]] ∧
        act.precond_neg = [] ∧ act.effect_add = [Lit.mk "At" [pl, toA]] ∧
        act.effect_rem = [Lit.mk "At" [pl, fr]]) := by
  refine ⟨load_actions_length cargos planes airports,
    unload_actions_length cargos planes airports,
    fly_actions_length planes airports hn, ?_, ?_, ?_⟩
  · intro act hact
    simp only [load_actions, List.mem_flatMap, List.mem_map] at hact
    obtain ⟨c, hc, p, hp, a, ha, rfl⟩ := hact
    exact ⟨c, hc, p, hp, a, ha, rfl, rfl, rfl, rfl, rfl⟩
  · intro act hact
    simp only [unload_actions, List.mem_flatMap, List.mem_map] at hact
    obtain ⟨c, hc, p, hp, a, ha, rfl⟩ := hact
    exact ⟨c, hc, p, hp, a, ha, rfl, rfl, rfl, rfl, rfl⟩
  · intro act hact
    simp only [fly_actions, List.mem_flatMap] at hact
    obtain ⟨fr, hfr, toA, htoA, hin⟩ := hact
    by_cases hne : fr ≠ toA
    · rw [if_pos hne] at hin
      simp only [List.mem_map] at hin
      obtain ⟨pl, hpl, rfl⟩ := hin
      exact ⟨pl, hpl, fr, hfr, toA, htoA, hne, rfl, rfl, rfl, rfl, rfl⟩
    · rw [if_neg hne] at hin
      cases hin

theorem C3_grounding_counts_witness :
    (["JFK", "SFO"] : List String).Nodup ∧
    (load_actions ["C1", "C2"] ["P1", "P2"] ["JFK", "SFO"]).length = 8 ∧
    (fly_actions ["P1", "P2"] ["JFK", "SFO"]).length = 4 :=
  ⟨by decide,
    (C3_grounding_counts ["C1", "C2"] ["P1", "P2"] ["JFK", "SFO"] (by decide)).1,
    (C3_grounding_counts ["C1", "C2"] ["P1", "P2"] ["JFK", "SFO"] (by decide)).2.2.1⟩

/-- C4: `goal_test` holds iff every goal literal is among the decoded
true literals of the state, and a goal literal absent from the atom
universe can never be satisfied by any state. -/
theorem C4_goal_test_iff (p : AirCargoProblem) (s : List Bool) :
    (p.goal_test s = true ↔
      ∀ g ∈ p.goal, g ∈ (decode_state s p.state_map).pos) ∧
    (∀ g ∈ p.goal, g ∉ p.state_map → p.goal_test s = false) := by
  have hiff : p.goal_test s = true ↔
      ∀ g ∈ p.goal, g ∈ (decode_state s p.state_map).pos := by
    unfold AirCargoProblem.goal_test
    simp [List.all_eq_true, mem_posSentenceClauses_false]
  refine ⟨hiff, fun g hg habs => ?_⟩
  rw [← Bool.not_eq_true]
  intro htrue
  exact habs ((decode_pos_sublist s p.state_map).subset (hiff.mp htrue g hg))

theorem C4_goal_test_iff_witness :
    Lit.mk "At" ["C1", "SFO"] ∈ toyProblem.goal ∧
    Lit.mk "At" ["C1", "SFO"] ∉ toyProblem.state_map ∧
    toyProblem.goal_test toyProblem.initial_state_TF = false :=
  ⟨by decide, by decide,
    (C4_goal_test_iff toyProblem toyProblem.initial_state_TF).2
      (Lit.mk "At" ["C1", "SFO"]) (by decide) (by decide)⟩

/-- C5: `h_ignore_preconditions` is a non-negative integer equal to the
exact count of goal literals that are not among the decoded true
literals of the state. -/
theorem C5_h_ignore_count (p : AirCargoProblem) (s : List Bool) :
    0 ≤ p.h_ignore_preconditions s ∧
    p.h_ignore_preconditions s =
      (p.goal.filter
        (fun g => decide (g ∉ (decode_state s p.state_map).pos))).length := by
  refine ⟨Nat.zero_le _, ?_⟩
  show (p.goal.filter (fun g => decide (Clause.mk false g ∉
      sentenceClauses (decode_state s p.state_map)))).length =
    (p.goal.filter
      (fun g => decide (g ∉ (decode_state s p.state_map).pos))).length
  congr 1
  apply List.filter_congr
  intro g _
  apply decide_eq_decide.mpr
  exact not_congr (mem_sentenceClauses_false (decode_state s p.state_map) g)


/-- C6: in the 2-cargo/2-plane/2-airport scenario, `goal_test` is false
on the initial state, `h_ignore_preconditions` is 2 there, and after
applying Load(C1,P1,SFO), Fly(P1,SFO,JFK), Unload(C1,P1,JFK),
Load(C2,P2,JFK), Fly(P2,JFK,SFO), Unload(C2,P2,SFO) through `result`
the goal test holds and the heuristic is 0. -/
theorem C6_p1_scenario :
    air_cargo_p1.goal_test air_cargo_p1.initial_state_TF = false ∧
    air_cargo_p1.h_ignore_preconditions air_cargo_p1.initial_state_TF = 2 ∧
    air_cargo_p1.goal_test p1FinalState = true ∧
    air_cargo_p1.h_ignore_preconditions p1FinalState = 0 :=
  ⟨by decide, by decide, by decide, by decide⟩

/-- C7: invoked with a ground action whose precondition check fails in
the given state, `result` still applies the effects unconditionally —
it returns the decode/remove/add/re-encode state of §4.3 rather than
failing or leaving the state unchanged. -/
theorem C7_result_unconditional (p : AirCargoProblem) (hu : p.state_map.Nodup)
    (s : List Bool) (a : Action)
    (_ha : a.check_precond (sentenceClauses (decode_state s p.state_map)) = false) :
    p.result s a = resultSpecDesc s a p.state_map :=
  result_eq_desc p hu s a

theorem C7_result_unconditional_witness :
    (unloadAct "C1" "P1" "JFK").check_precond
      (sentenceClauses (decode_state air_cargo_p1.initial_state_TF
        air_cargo_p1.state_map)) = false ∧
    air_cargo_p1.result air_cargo_p1.initial_state_TF (unloadAct "C1" "P1" "JFK") =
      resultSpecDesc air_cargo_p1.initial_state_TF (unloadAct "C1" "P1" "JFK")
        air_cargo_p1.state_map ∧
    air_cargo_p1.result air_cargo_p1.initial_state_TF (unloadAct "C1" "P1" "JFK") ≠
      air_cargo_p1.initial_state_TF :=
  ⟨by decide,
    C7_result_unconditional air_cargo_p1 (by decide) air_cargo_p1.initial_state_TF
      (unloadAct "C1" "P1" "JFK") (by decide),
    by decide⟩

/-- C8: `result` with an action whose add effects are all already true
in the state and whose remove effects are all already false returns the
input state unchanged. -/
theorem C8_irrelevant_effects (p : AirCargoProblem) (hu : p.state_map.Nodup)
    (s : List Bool) (hs : s.length = p.state_map.length) (a : Action)
    (hadd : ∀ l ∈ a.effect_add, l ∈ (decode_state s p.state_map).pos)
    (hrem : ∀ l ∈ a.effect_rem, l ∉ (decode_state s p.state_map).pos) :
    p.result s a = s := by
  rw [result_eq_desc p hu s a]
  show p.state_map.map (fun l =>
      (decide (l ∈ (decode_state s p.state_map).pos) &&
        !decide (l ∈ a.effect_rem)) || decide (l ∈ a.effect_add)) = s
  have hpt : ∀ l ∈ p.state_map,
      ((decide (l ∈ (decode_state s p.state_map).pos) &&
        !decide (l ∈ a.effect_rem)) || decide (l ∈ a.effect_add))
      = decide (l ∈ (decode_state s p.state_map).pos) := by
    intro l _
    by_cases h1 : l ∈ a.effect_add
    · simp [h1, hadd l h1]
    · by_cases h2 : l ∈ a.effect_rem
      · simp [h1, h2, hrem l h2]
      · simp [h1, h2]
  rw [List.map_congr_left hpt]
  exact encode_decode_state p.state_map s hu hs

theorem C8_irrelevant_effects_witness :
    air_cargo_p1.state_map.Nodup ∧
    air_cargo_p1.initial_state_TF.length = air_cargo_p1.state_map.length ∧
    (∀ l ∈ (flyAct "P1" "JFK" "SFO").effect_add,
      l ∈ (decode_state air_cargo_p1.initial_state_TF air_cargo_p1.state_map).pos) ∧
    (∀ l ∈ (flyAct "P1" "JFK" "SFO").effect_rem,
      l ∉ (decode_state air_cargo_p1.initial_state_TF air_cargo_p1.state_map).pos) ∧
    air_cargo_p1.result air_cargo_p1.initial_state_TF (flyAct "P1" "JFK" "SFO") =
      air_cargo_p1.initial_state_TF :=
  ⟨by decide, by decide, by decide, by decide,
    C8_irrelevant_effects air_cargo_p1 (by decide) air_cargo_p1.initial_state_TF
      (by decide) (flyAct "P1" "JFK" "SFO") (by decide) (by decide)⟩

/-- C9: both non-constant heuristics — `h_ignore_preconditions` and the
delegated `h_pg_levelsum` — are memoised in a bounded least-recently-used
cache keyed by problem identity and state.  Whatever consistent prior
contents either cache holds, the memoised call returns exactly the
directly recomputed value for the queried problem, a lookup under one
problem identity can only surface that problem's own estimate, the
updated cache is again consistent and within the capacity bound, the
calls never change the capacity, and the cache each decorator installs
has capacity 8192. -/
theorem C9_memoized_heuristics (problems : Nat → AirCargoProblem)
    (level_sum : AirCargoProblem → List Bool → Nat)
    (cacheI cacheL : LruCache (Nat × List Bool) Nat)
    (hcI : cacheI.Consistent (hIgnoreKeyFun problems))
    (hcL : cacheL.Consistent (hLevelsumKeyFun problems level_sum))
    (pid : Nat) (s : List Bool) :
    (hIgnoreMemo problems cacheI pid s).1 =
      (problems pid).h_ignore_preconditions s ∧
    (hIgnoreMemo problems cacheI pid s).2.Consistent (hIgnoreKeyFun problems) ∧
    (cacheI.entries.length ≤ cacheI.capacity →
      (hIgnoreMemo problems cacheI pid s).2.entries.length ≤ cacheI.capacity) ∧
    (∀ v, cacheI.lookup (pid, s) = some v →
      v = (problems pid).h_ignore_preconditions s) ∧
    (hLevelsumMemo problems level_sum cacheL pid s).1 =
      (problems pid).h_pg_levelsum level_sum s ∧
    (hLevelsumMemo problems level_sum cacheL pid s).2.Consistent
      (hLevelsumKeyFun problems level_sum) ∧
    (cacheL.entries.length ≤ cacheL.capacity →
      (hLevelsumMemo problems level_sum cacheL pid s).2.entries.length ≤
        cacheL.capacity) ∧
    (∀ v, cacheL.lookup (pid, s) = some v →
      v = (problems pid).h_pg_levelsum level_sum s) ∧
    (hIgnoreMemo problems cacheI pid s).2.capacity = cacheI.capacity ∧
    (hLevelsumMemo problems level_sum cacheL pid s).2.capacity = cacheL.capacity ∧
    freshHeuristicCache.capacity = 8192 :=
  ⟨memoCall_fst (hIgnoreKeyFun problems) cacheI hcI (pid, s),
   memoCall_consistent (hIgnoreKeyFun problems) cacheI hcI (pid, s),
   fun hb => memoCall_bounded (hIgnoreKeyFun problems) cacheI (pid, s) hb,
   fun _v hv => lookup_consistent hcI hv,
   memoCall_fst (hLevelsumKeyFun problems level_sum) cacheL hcL (pid, s),
   memoCall_consistent (hLevelsumKeyFun problems level_sum) cacheL hcL (pid, s),
   fun hb => memoCall_bounded (hLevelsumKeyFun problems level_sum) cacheL
     (pid, s) hb,
   fun _v hv => lookup_consistent hcL hv,
   memoCall_capacity (hIgnoreKeyFun problems) cacheI (pid, s),
   memoCall_capacity (hLevelsumKeyFun problems level_sum) cacheL (pid, s),
   rfl⟩

theorem C9_memoized_heuristics_witness :
    freshHeuristicCache.Consistent (hIgnoreKeyFun (fun _ => air_cargo_p1)) ∧
    freshHeuristicCache.Consistent
      (hLevelsumKeyFun (fun _ => air_cargo_p1) (fun _ _ => 3)) ∧
    (hIgnoreMemo (fun _ => air_cargo_p1) freshHeuristicCache 0
        air_cargo_p1.initial_state_TF).1 =
      air_cargo_p1.h_ignore_preconditions air_cargo_p1.initial_state_TF ∧
    (hLevelsumMemo (fun _ => air_cargo_p1) (fun _ _ => 3) freshHeuristicCache 0
        air_cargo_p1.initial_state_TF).1 =
      air_cargo_p1.h_pg_levelsum (fun _ _ => 3) air_cargo_p1.initial_state_TF ∧
    freshHeuristicCache.capacity = 8192 :=
  ⟨fun e he => absurd he (List.not_mem_nil e),
   fun e he => absurd he (List.not_mem_nil e),
   (C9_memoized_heuristics (fun _ => air_cargo_p1) (fun _ _ => 3)
     freshHeuristicCache freshHeuristicCache
     (fun e he => absurd he (List.not_mem_nil e))
     (fun e he => absurd he (List.not_mem_nil e)) 0
     air_cargo_p1.initial_state_TF).1,
   (C9_memoized_heuristics (fun _ => air_cargo_p1) (fun _ _ => 3)
     freshHeuristicCache freshHeuristicCache
     (fun e he => absurd he (List.not_mem_nil e))
     (fun e he => absurd he (List.not_mem_nil e)) 0
     air_cargo_p1.initial_state_TF).2.2.2.2.1,
   rfl⟩

/-- C10: within-segment enumeration order of the grounded list: the load
and unload segments run lexicographically with the cargo loop outermost,
then plane, then airport, while the fly segment is grouped by distinct
(from, to) airport pair — from-airport outermost, then to-airport — with
the plane loop innermost. -/
theorem C10_within_segment_order (cargos planes airports : List String)
    (i j k m r : Nat) (hi : i < cargos.length) (hj : j < planes.length)
    (hk : k < airports.length) (hm : m < (distinctPairs airports).length)
    (hr : r < planes.length) :
    (load_actions cargos planes airports)[
        i * (planes.length * airports.length) + (j * airports.length + k)]? =
      some (loadAct (cargos.get ⟨i, hi⟩) (planes.get ⟨j, hj⟩)
        (airports.get ⟨k, hk⟩)) ∧
    (unload_actions cargos planes airports)[
        i * (planes.length * airports.length) + (j * airports.length + k)]? =
      some (unloadAct (cargos.get ⟨i, hi⟩) (planes.get ⟨j, hj⟩)
        (airports.get ⟨k, hk⟩)) ∧
    fly_actions planes airports =
      (distinctPairs airports).flatMap
        (fun q => planes.map (fun p => flyAct p q.1 q.2)) ∧
    (fly_actions planes airports)[m * planes.length + r]? =
      some (flyAct (planes.get ⟨r, hr⟩)
        ((distinctPairs airports).get ⟨m, hm⟩).1
        ((distinctPairs airports).get ⟨m, hm⟩).2) := by
  refine ⟨triple_loop_getElem loadAct cargos planes airports i j k hi hj hk,
    triple_loop_getElem unloadAct cargos planes airports i j k hi hj hk,
    fly_actions_grouped planes airports, ?_⟩
  rw [fly_actions_grouped]
  rw [flatMap_getElem_const (distinctPairs airports) _ planes.length
    (fun q _ => by simp) m r hm hr]
  rw [List.getElem?_map, List.getElem?_eq_getElem hr]
  simp

theorem C10_within_segment_order_witness :
    1 < (["C1", "C2"] : List String).length ∧
    1 < (distinctPairs ["JFK", "SFO"]).length ∧
    (load_actions ["C1", "C2"] ["P1", "P2"] ["JFK", "SFO"])[5]? =
      some (loadAct "C2" "P1" "SFO") ∧
    (fly_actions ["P1", "P2"] ["JFK", "SFO"])[3]? =
      some (flyAct "P2" "SFO" "JFK") :=
  ⟨by decide, by decide,
    (C10_within_segment_order ["C1", "C2"] ["P1", "P2"] ["JFK", "SFO"]
      1 0 1 1 1 (by decide) (by decide) (by decide) (by decide) (by decide)).1,
    (C10_within_segment_order ["C1", "C2"] ["P1", "P2"] ["JFK", "SFO"]
      1 0 1 1 1 (by decide) (by decide) (by decide) (by decide) (by decide)).2.2.2⟩


end AirCargo
